import Mathlib

/-!
Shallow embedding of the mudclient-rs map-generation scripts
(`map_gen.py` and `calculate_width.py`) and proofs about the
properties claimed of them.

Python text primitives (`str.strip`, `str.split`, `str.lower`, `\d`
in regexes) operate on full Unicode classes; the transcripts this
tool consumes, and every string the claims mention, use only the
ASCII portion of those classes, which is what is modelled here.
-/

namespace MudMap

/-- ASCII whitespace recognised by `str.strip()` / `str.split()`. -/
def isPyWS (c : Char) : Bool :=
  c = ' ' || c = '\t' || c = '\n' || c = '\r' || c = '\x0b' || c = '\x0c'

/-- `str.strip()`: drop leading and trailing whitespace. -/
def pyStrip (s : String) : String :=
  ⟨((s.data.dropWhile isPyWS).reverse.dropWhile isPyWS).reverse⟩

/-- `str.lower()` (ASCII portion). -/
def pyLower (s : String) : String :=
  ⟨s.data.map Char.toLower⟩

/-- `lines[j]` accessed by index; scans in the source never index out of
range, so out-of-range defaults to the empty line. -/
def lineAt (lines : List String) (j : Nat) : String :=
  lines.getD j ""

/-- Does the character list begin with the given literal? (`str.startswith`). -/
def leadsWith : List Char → List Char → Bool
  | [], _ => true
  | _ :: _, [] => false
  | p :: ps, c :: cs => p = c && leadsWith ps cs

/-- Worker for whitespace tokenisation, carrying the reversed current token. -/
def tokensGo : List Char → List Char → List (List Char)
  | [], acc => if acc.isEmpty then [] else [acc.reverse]
  | c :: cs, acc =>
    if isPyWS c then
      if acc.isEmpty then tokensGo cs [] else acc.reverse :: tokensGo cs []
    else tokensGo cs (c :: acc)

/-- `str.split()` with no argument: whitespace-run separated tokens,
no empty tokens. -/
def tokensOf (cs : List Char) : List (List Char) :=
  tokensGo cs []

/-- `cmd_line.split()[0] if cmd_line else ""`. -/
def headTokStr (s : String) : String :=
  ⟨(tokensOf s.data).headD []⟩

/-- Tail condition shared by both anchored regexes: the rest of the line is
a run of non-newline characters (`.` does not match newline) closed by the
given final character, anchored at end of line (`$` on a stripped line). -/
def closedBy (close : Char) : List Char → Bool
  | [] => false
  | c :: rest => if rest.isEmpty then c = close else c ≠ '\n' && closedBy close rest

/-- The exit-declaration regex `^\[出口: (.*)\]$` applied with `re.match`
to a stripped line; returns the text captured by the greedy `(.*)`
(everything up to the final `]`). -/
def exitMatch : List Char → Option (List Char)
  | c1 :: c2 :: c3 :: c4 :: c5 :: rest =>
    if c1 = '[' ∧ c2 = '出' ∧ c3 = '口' ∧ c4 = ':' ∧ c5 = ' ' ∧ closedBy ']' rest then
      some rest.dropLast
    else none
  | _ => none

/-- Consume a literal prefix. -/
def dropLit : List Char → List Char → Option (List Char)
  | [], cs => some cs
  | _ :: _, [] => none
  | p :: ps, c :: cs => if c = p then dropLit ps cs else none

/-- Consume `\d+` (greedy; the regex contexts that follow a digit run here
never start with a digit, so maximal munch is exact). -/
def dropDigits1 : List Char → Option (List Char)
  | [] => none
  | c :: cs => if c.isDigit then some (cs.dropWhile Char.isDigit) else none

/-- Consume `<lit>\d+/\d+`, one labelled current/max stat group. -/
def statPair (lab : List Char) (cs : List Char) : Option (List Char) :=
  (dropLit lab cs).bind fun c1 =>
    (dropDigits1 c1).bind fun c2 =>
      (dropLit ['/'] c2).bind dropDigits1

/-- Ordered choice, as regex alternation `(?:mv|v)`; the two branches are
distinguished by their first character, so no deeper backtracking arises. -/
def orElseOpt (a b : Option (List Char)) : Option (List Char) :=
  match a with
  | some x => some x
  | none => b

/-- The status-prompt regex
`^\(hp\d+/\d+ ma\d+/\d+ (?:mv|v)\d+/\d+ p\d+/\d+.*?\)$`
applied with `re.match` to a stripped line. -/
def promptMatch (cs : List Char) : Bool :=
  match (statPair ('(' :: 'h' :: 'p' :: []) cs).bind fun c1 =>
        (statPair (' ' :: 'm' :: 'a' :: []) c1).bind fun c2 =>
        (dropLit [' '] c2).bind fun c3 =>
        (orElseOpt ((dropLit ('m' :: 'v' :: []) c3).bind fun u =>
                      (dropDigits1 u).bind fun u1 =>
                        (dropLit ['/'] u1).bind dropDigits1)
                   ((dropLit ['v'] c3).bind fun u =>
                      (dropDigits1 u).bind fun u1 =>
                        (dropLit ['/'] u1).bind dropDigits1)).bind fun c4 =>
        statPair (' ' :: 'p' :: []) c4 with
  | some rest => closedBy ')' rest
  | none => false

/-- `COMMANDS_TO_IGNORE` from the source (a Python set literal; `'n'`
appears twice there, which is harmless for membership). -/
def RESERVED : List String :=
  ["l", "look", "n", "s", "e", "w", "u", "d",
   "north", "south", "east", "west", "up", "down",
   "i", "inv", "inventory", "stat", "score", "wa", "who",
   "say", "tell", "chat", "y", "n", "yes", "no", "em"]

/-- The recognised movement commands scanned for between two rooms. -/
def MOVES : List String :=
  ["n", "s", "e", "w", "u", "d",
   "north", "south", "east", "west", "up", "down"]

/-- `dir_map`: direction letter to localized label. -/
def dirMap : List (String × String) :=
  [("n", "北"), ("s", "南"), ("e", "東"), ("w", "西"), ("u", "上"), ("d", "下")]

/-- Association-list lookup (Python `dict` lookup; keys are unique). -/
def lookupA (k : String) : List (String × String) → Option String
  | [] => none
  | (a, v) :: rest => if a = k then some v else lookupA k rest

/-- `f"node_{len(node_map)}"`. -/
def mkId (k : Nat) : String :=
  "node_" ++ Nat.repr k

/-- A node-declaration output line. -/
def renderNode (id name : String) : String :=
  "    " ++ id ++ "[\"" ++ name ++ "\"]"

/-- An edge-declaration output line. -/
def renderEdge (t : String × String × String) : String :=
  "    " ++ t.1 ++ " -- \"" ++ t.2.2 ++ "\" --> " ++ t.2.1

/-- A detected room: recovered name, exit tokens, and the position of its
exit-declaration line. -/
structure RoomR where
  name : String
  exits : List String
  index : Nat
deriving DecidableEq

/-- First `some` produced by `f` over a list of line indices (models the
`for`/`break` scans of the source). -/
def firstSome (f : Nat → Option String) : List Nat → Option String
  | [] => none
  | j :: js =>
    match f j with
    | some s => some s
    | none => firstSome f js

/-- Eligibility test of the forward scan below a status prompt
(`n_line and not n_line.startswith('>>>') and len(n_line) < 30`). -/
def fwF (lines : List String) (j : Nat) : Option String :=
  if pyStrip (lineAt lines j) ≠ "" ∧
      ¬leadsWith ('>' :: '>' :: '>' :: []) (pyStrip (lineAt lines j)).data ∧
      (pyStrip (lineAt lines j)).length < 30 then
    some (pyStrip (lineAt lines j))
  else none

/-- Forward scan `for k in range(j+1, i)` under a found status prompt. -/
def fwdScan (lines : List String) (lo hi : Nat) : Option String :=
  firstSome (fwF lines) (List.range' lo (hi - lo))

/-- Eligibility test of the fallback forward scan
(`l and not l.startswith('(') and not l.startswith('>') and not
l.startswith('>>>')`). -/
def fbF (lines : List String) (j : Nat) : Option String :=
  if pyStrip (lineAt lines j) ≠ "" ∧
      ¬leadsWith ['('] (pyStrip (lineAt lines j)).data ∧
      ¬leadsWith ['>'] (pyStrip (lineAt lines j)).data ∧
      ¬leadsWith ('>' :: '>' :: '>' :: []) (pyStrip (lineAt lines j)).data then
    some (pyStrip (lineAt lines j))
  else none

/-- Fallback forward scan `for j in range(last_end_index, i)`. -/
def fallbackScan (lines : List String) (lastEnd i : Nat) : Option String :=
  firstSome (fbF lines) (List.range' lastEnd (i - lastEnd))

/-- Backward scan `for j in range(i-1, last_end_index, -1)`: passed the
descending index list; returns the name found via a status prompt (if any)
and whether a fallback candidate line was seen before that point. -/
def backScanAux (lines : List String) (i : Nat) : List Nat → Bool → Option String × Bool
  | [], cand => (none, cand)
  | j :: js, cand =>
    if pyStrip (lineAt lines j) = "" then backScanAux lines i js cand
    else if promptMatch (pyStrip (lineAt lines j)).data then (fwdScan lines (j + 1) i, cand)
    else if (pyStrip (lineAt lines j)).length < 30 ∧
        ¬leadsWith ['('] (pyStrip (lineAt lines j)).data ∧
        ¬leadsWith ['['] (pyStrip (lineAt lines j)).data then
      backScanAux lines i js true
    else backScanAux lines i js cand

/-- Room-name recovery for the exit declaration at line `i`, bounded below
by `lastEnd` (the previous exit declaration, or 0). -/
def extractName (lines : List String) (lastEnd i : Nat) : String :=
  match backScanAux lines i ((List.range' (lastEnd + 1) (i - 1 - lastEnd)).reverse) false with
  | (some n, _) => n
  | (none, cand) =>
    if cand then (fallbackScan lines lastEnd i).getD "Unknown" else "Unknown"

/-- The per-file room-detection loop, walking the line indices in order and
carrying `last_end_index` and the accumulated room list. -/
def collectRoomsAux (lines : List String) : List Nat → Nat → List RoomR → List RoomR
  | [], _, acc => acc
  | i :: is, lastEnd, acc =>
    match exitMatch (pyStrip (lineAt lines i)).data with
    | some mid =>
      collectRoomsAux lines is i
        (acc ++ [⟨extractName lines lastEnd i, (tokensOf mid).map (⟨·⟩), i⟩])
    | none => collectRoomsAux lines is lastEnd acc

def collectRooms (lines : List String) : List RoomR :=
  collectRoomsAux lines (List.range lines.length) 0 []

/-- One step of the movement-command scan: lowercased first token of the
stripped line, tested against the recognised commands. -/
def mvF (lines : List String) (j : Nat) : Option String :=
  if headTokStr (pyLower (pyStrip (lineAt lines j))) ∈ MOVES then
    some (headTokStr (pyLower (pyStrip (lineAt lines j))))
  else none

/-- Movement-command scan `for j in range(room_a['index'], room_b['index'])`
(the source includes position `a` itself in the scan). -/
def findMove (lines : List String) (a b : Nat) : Option String :=
  firstSome (mvF lines) (List.range' a (b - a))

/-- The link produced (or not) for one consecutive room pair.  The source
runs the movement scan before the reserved-name filter; the resulting link
does not depend on that order. -/
def pairLink (lines : List String) (ra rb : RoomR) : Option (String × String × String) :=
  if ra.name ∈ RESERVED ∨ rb.name ∈ RESERVED then none
  else
    match findMove lines ra.index rb.index with
    | some cmd => some (ra.name, rb.name, (lookupA cmd dirMap).getD cmd)
    | none =>
      if ra.name = rb.name then none else some (ra.name, rb.name, "move")

/-- Links of one transcript: consecutive room pairs in order. -/
def buildLinks (lines : List String) (rooms : List RoomR) : List (String × String × String) :=
  (rooms.zip rooms.tail).filterMap fun p => pairLink lines p.1 p.2

/-- Node registration for one transcript's rooms: names that are neither
reserved nor already registered get the next sequential identifier, and a
node-declaration line is emitted at registration. -/
def addNodes : List RoomR → List (String × String) → List String →
    List (String × String) × List String
  | [], nm, out => (nm, out)
  | r :: rs, nm, out =>
    if r.name ∈ RESERVED ∨ (lookupA r.name nm).isSome then addNodes rs nm out
    else
      addNodes rs (nm ++ [(r.name, mkId nm.length)])
        (out ++ [renderNode (mkId nm.length) r.name])

/-- The invocation-scoped accumulator: the node map, the node-declaration
lines emitted so far, and the buffered links. -/
structure GState where
  nodeMap : List (String × String)
  nodeLines : List String
  links : List (String × String × String)
deriving DecidableEq

/-- Processing of one input file: a missing file (`None`) is skipped;
otherwise rooms are detected, links buffered, and nodes registered. -/
def stepFile (st : GState) (file : Option (List String)) : GState :=
  match file with
  | none => st
  | some lines =>
    ⟨(addNodes (collectRooms lines) st.nodeMap st.nodeLines).1,
     (addNodes (collectRooms lines) st.nodeMap st.nodeLines).2,
     st.links ++ buildLinks lines (collectRooms lines)⟩

def runFiles (files : List (Option (List String))) : GState :=
  files.foldl stepFile ⟨[], [], []⟩

/-- Final edge emission: for each buffered link whose endpoints are both in
the node map, emit the identifier triple unless already seen. -/
def emitEdgesAux (nm : List (String × String)) :
    List (String × String × String) → List (String × String × String) →
    List (String × String × String)
  | [], _ => []
  | (s, e, lab) :: rest, seen =>
    match lookupA s nm, lookupA e nm with
    | some ids, some ide =>
      if (ids, ide, lab) ∈ seen then emitEdgesAux nm rest seen
      else (ids, ide, lab) :: emitEdgesAux nm rest ((ids, ide, lab) :: seen)
    | _, _ => emitEdgesAux nm rest seen

/-- The deduplicated edge triples of one invocation, in emission order. -/
def edgeTriples (files : List (Option (List String))) : List (String × String × String) :=
  emitEdgesAux (runFiles files).nodeMap (runFiles files).links []

/-- `parse_logs`: full output of one invocation, as the list of printed
lines (header, node declarations in discovery order, then edges). -/
def parseLogs (files : List (Option (List String))) : List String :=
  "graph TD" :: (runFiles files).nodeLines ++ (edgeTriples files).map renderEdge

/-- Movement-command scan as the spec words it: over the lines strictly
between the two exit declarations, both endpoints excluded. -/
def findMoveSpec (lines : List String) (a b : Nat) : Option String :=
  firstSome (mvF lines) (List.range' (a + 1) (b - (a + 1)))

/-- Direction-to-label table as amended: the six single-letter commands map
to their localized words; a full-word command labels the link with the
command word itself. -/
def amendedLabel (c : String) : String :=
  if c = "n" then "北" else if c = "s" then "南" else if c = "e" then "東"
  else if c = "w" then "西" else if c = "u" then "上" else if c = "d" then "下"
  else c

/-- One `<label><current>/<max>` stat group, for stating the shape the
claimed status-prompt classification quantifies over. -/
def statGroup (lab cur mx : String) : String :=
  lab ++ cur ++ "/" ++ mx

/-- A transcript whose single movement command is the full word `north`. -/
def fullWordLines : List String :=
  ["(hp1/2 ma3/4 mv5/6 p7/8)", "RoomA", "[出口: north]", "north",
   "(hp1/2 ma3/4 mv5/6 p7/8)", "RoomB", "[出口: south]"]

/-- A transcript whose room name is resolved by the fallback scan from a
line far longer than 30 characters. -/
def longNameLines : List String :=
  ["A very long line that clearly exceeds thirty characters in total length",
   "Shorty", "[出口: n]"]

/-- A parenthesized composite of three numeric stat groups with three
distinct labels, none of them the required `hp`/`ma`/`mv`/`p`. -/
def threeGroupLine : String :=
  "(ab1/2 cd3/4 ef5/6)"

/-- Invariant carried by the accumulator across files: identifiers are the
sequential `node_<k>`, node lines mirror the node map, keys are unique and
never reserved, and every buffered link has non-reserved endpoints that
resolve in the node map. -/
def GInv (st : GState) : Prop :=
  st.nodeMap.map Prod.snd = (List.range st.nodeMap.length).map mkId ∧
  st.nodeLines = st.nodeMap.map (fun p => renderNode p.2 p.1) ∧
  (st.nodeMap.map Prod.fst).Nodup ∧
  (∀ p ∈ st.nodeMap, p.1 ∉ RESERVED) ∧
  (∀ l ∈ st.links, l.1 ∉ RESERVED ∧ l.2.1 ∉ RESERVED ∧
    (lookupA l.1 st.nodeMap).isSome ∧ (lookupA l.2.1 st.nodeMap).isSome)

/-- Decimal value of a character list, inverse to `Nat.repr` (used to show
generated node identifiers are pairwise distinct). -/
def decVal (l : List Char) : Nat :=
  l.foldl (fun a c => 10 * a + (c.toNat - 48)) 0

/-- The exact four-fixed-label status-prompt shape, as a character list:
`(hp<d1>/<d2> ma<d3>/<d4> <marker><d5>/<d6> p<d7>/<d8><trailing>)`. -/
def promptShape (d1 d2 d3 d4 d5 d6 d7 d8 marker trailing : List Char) : List Char :=
  '(' :: 'h' :: 'p' :: (d1 ++ ('/' :: (d2 ++ (' ' :: 'm' :: 'a' :: (d3 ++ ('/' :: (d4 ++ (' ' :: (marker ++ (d5 ++ ('/' :: (d6 ++ (' ' :: 'p' :: (d7 ++ ('/' :: (d8 ++ (trailing ++ ')' :: [])))))))))))))))))

end MudMap

namespace CalcWidth

/-- `get_width` from `calculate_width.py`: the character-cell width of a
string, where box-drawing characters (U+2500..U+257F) count `box_width`
cells, other characters above U+0080 count 2, CR/LF count 0, and
everything else counts 1.  Accumulator form mirroring the source loop. -/
def getWidthGo (b : Int) : List Char → Int → Int
  | [], w => w
  | ch :: cs, w =>
    if ch = '\r' || ch = '\n' then getWidthGo b cs w
    else if 0x2500 ≤ ch.toNat && ch.toNat ≤ 0x257F then getWidthGo b cs (w + b)
    else if ch.toNat > 0x80 then getWidthGo b cs (w + 2)
    else getWidthGo b cs (w + 1)

def getWidth (s : String) (b : Int) : Int :=
  getWidthGo b s.data 0

/-- Per-character weight as the claim states it: 0 for CR/LF, `b` in the
box-drawing range, 2 for any other character above U+0080, else 1. -/
def charWeight (b : Int) (ch : Char) : Int :=
  if ch = '\r' ∨ ch = '\n' then 0
  else if 0x2500 ≤ ch.toNat ∧ ch.toNat ≤ 0x257F then b
  else if ch.toNat > 0x80 then 2
  else 1

theorem getWidthGo_acc (b : Int) (cs : List Char) (w : Int) :
    getWidthGo b cs w = w + getWidthGo b cs 0 := by
  induction cs generalizing w with
  | nil => simp [getWidthGo]
  | cons c cs ih =>
    simp only [getWidthGo]
    by_cases h1 : (c = '\r' || c = '\n') = true
    · rw [if_pos h1, if_pos h1]
      exact ih w
    · rw [if_neg h1, if_neg h1]
      by_cases h2 : (0x2500 ≤ c.toNat && c.toNat ≤ 0x257F) = true
      · rw [if_pos h2, if_pos h2, ih (w + b), ih (0 + b)]
        ring
      · rw [if_neg h2, if_neg h2]
        by_cases h3 : c.toNat > 0x80
        · rw [if_pos h3, if_pos h3, ih (w + 2), ih (0 + 2)]
          ring
        · rw [if_neg h3, if_neg h3, ih (w + 1), ih (0 + 1)]
          ring

end CalcWidth

namespace CalcWidth

theorem getWidthGo_eq_sum (b : Int) (cs : List Char) :
    getWidthGo b cs 0 = (cs.map (charWeight b)).sum := by
  induction cs with
  | nil => simp [getWidthGo]
  | cons c cs ih =>
    simp only [getWidthGo, List.map_cons, List.sum_cons]
    by_cases h1 : c = '\r' ∨ c = '\n'
    · have hb : (c = '\r' || c = '\n') = true := by
        rcases h1 with h | h <;> simp [h]
      rw [if_pos hb, charWeight, if_pos h1, ih, zero_add]
    · have hb : ¬((c = '\r' || c = '\n') = true) := by
        rw [not_or] at h1
        simp [h1.1, h1.2]
      rw [if_neg hb, charWeight, if_neg h1]
      by_cases h2 : 0x2500 ≤ c.toNat ∧ c.toNat ≤ 0x257F
      · have hb2 : (0x2500 ≤ c.toNat && c.toNat ≤ 0x257F) = true := by
          simp [h2.1, h2.2]
        rw [if_pos hb2, if_pos h2, getWidthGo_acc, ih, zero_add, add_comm]
      · have hb2 : ¬((0x2500 ≤ c.toNat && c.toNat ≤ 0x257F) = true) := by
          rw [not_and_or] at h2
          rcases h2 with h | h <;> simp [h]
        rw [if_neg hb2, if_neg h2]
        by_cases h3 : c.toNat > 0x80
        · rw [if_pos h3, if_pos h3, getWidthGo_acc, ih, zero_add, add_comm]
        · rw [if_neg h3, if_neg h3, getWidthGo_acc, ih, zero_add, add_comm]

/-- C10: for every string and every box-drawing unit size, `get_width`
returns exactly the sum over the characters of: 0 for CR or LF, the unit
size for a box-drawing character (U+2500–U+257F), 2 for any other
character above U+0080, and 1 otherwise. -/
theorem get_width_eq_weight_sum (s : String) (b : Int) :
    getWidth s b = (s.data.map (charWeight b)).sum :=
  getWidthGo_eq_sum b s.data

end CalcWidth

namespace MudMap

/-- C8: the engine is deterministic — two runs over byte-identical input
file sets (same contents, same order) produce byte-identical output lines
(header, node declarations, and edge declarations alike).  `parseLogs` is a
pure function of the file list: it reads no clock, randomness, or state
surviving an invocation. -/
theorem parse_logs_deterministic (fs gs : List (Option (List String)))
    (h : fs = gs) : parseLogs fs = parseLogs gs := by
  rw [h]

theorem parse_logs_deterministic_witness :
    [some fullWordLines] = [some fullWordLines] ∧
      parseLogs [some fullWordLines] = parseLogs [some fullWordLines] :=
  ⟨rfl, parse_logs_deterministic [some fullWordLines] [some fullWordLines] rfl⟩

/-- C4 counterexample: in `fullWordLines` the movement command found
between the two detected rooms is the full word `north`, yet the emitted
link label is the literal `north`, not the localized direction word `北`
that the direction table assigns to `n`: full-word commands bypass the
table (`dir_map.get(move_cmd, move_cmd)` falls back to the command
itself). -/
theorem full_word_label_cex :
    collectRooms fullWordLines =
      [⟨"RoomA", ["north"], 2⟩, ⟨"RoomB", ["south"], 6⟩] ∧
    findMove fullWordLines 2 6 = some "north" ∧
    buildLinks fullWordLines (collectRooms fullWordLines) =
      [("RoomA", "RoomB", "north")] ∧
    ("north" : String) ≠ "北" := by
  refine ⟨?_, ?_, ?_, ?_⟩ <;> decide

/-- C5 counterexample: `threeGroupLine` is a parenthesized composite of
three `<label><current>/<max>` numeric stat groups with three distinct
labels, yet the classifier does not accept it as a status prompt: the
regex demands the four fixed labels `hp`, `ma`, `mv`/`v`, `p`. -/
theorem three_group_prompt_cex :
    threeGroupLine =
      "(" ++ statGroup "ab" "1" "2" ++ " " ++ statGroup "cd" "3" "4" ++
        " " ++ statGroup "ef" "5" "6" ++ ")" ∧
    (("ab" : String) ≠ "cd" ∧ ("ab" : String) ≠ "ef" ∧ ("cd" : String) ≠ "ef") ∧
    promptMatch threeGroupLine.data = false := by
  refine ⟨?_, ⟨?_, ?_, ?_⟩, ?_⟩ <;> decide

/-- C7 counterexample: in `longNameLines` the fallback forward scan
resolves the room name to a 71-character line — the fallback branch has no
length bound, so an extracted name need be neither `"Unknown"` nor at most
about 30 characters. -/
theorem long_fallback_name_cex :
    collectRooms longNameLines =
      [⟨"A very long line that clearly exceeds thirty characters in total length",
        ["n"], 2⟩] ∧
    ("A very long line that clearly exceeds thirty characters in total length" :
        String).length = 71 ∧
    ("A very long line that clearly exceeds thirty characters in total length" :
        String) ≠ "Unknown" := by
  refine ⟨?_, ?_, ?_⟩ <;> decide

end MudMap

namespace MudMap

theorem firstSome_eq_some (f : Nat → Option String) (n : String) :
    ∀ js, firstSome f js = some n → ∃ j, j ∈ js ∧ f j = some n := by
  intro js
  induction js with
  | nil => intro h; simp [firstSome] at h
  | cons j js ih =>
    intro h
    simp only [firstSome] at h
    cases hf : f j with
    | some s =>
      rw [hf] at h
      exact ⟨j, by simp, by rw [hf]; exact h⟩
    | none =>
      rw [hf] at h
      obtain ⟨j', hj', hfj⟩ := ih h
      exact ⟨j', by simp [hj'], hfj⟩

theorem fwF_len (lines : List String) (j : Nat) (n : String)
    (h : fwF lines j = some n) : n.length < 30 := by
  unfold fwF at h
  split at h
  · rename_i hc
    cases h
    exact hc.2.2
  · cases h

theorem fwdScan_len (lines : List String) (lo hi : Nat) (n : String)
    (h : fwdScan lines lo hi = some n) : n.length < 30 := by
  obtain ⟨j, _, hj⟩ := firstSome_eq_some _ _ _ h
  exact fwF_len lines j n hj

theorem backScanAux_len (lines : List String) (i : Nat) (n : String) :
    ∀ js cand, (backScanAux lines i js cand).1 = some n → n.length < 30 := by
  intro js
  induction js with
  | nil => intro cand h; simp [backScanAux] at h
  | cons j js ih =>
    intro cand h
    simp only [backScanAux] at h
    split at h
    · exact ih _ h
    · split at h
      · exact fwdScan_len lines (j + 1) i n h
      · split at h
        · exact ih _ h
        · exact ih _ h

/-- C7 amended: every extracted room name is the sentinel `"Unknown"`, or
is shorter than 30 characters (any name recovered through the status-prompt
branch), or is the line found by the fallback forward scan from `lastEnd`
— and that fallback branch imposes no length bound. -/
theorem extract_name_cases (lines : List String) (lastEnd i : Nat) :
    extractName lines lastEnd i = "Unknown" ∨
    (extractName lines lastEnd i).length < 30 ∨
    fallbackScan lines lastEnd i = some (extractName lines lastEnd i) := by
  unfold extractName
  generalize hbs : backScanAux lines i
    ((List.range' (lastEnd + 1) (i - 1 - lastEnd)).reverse) false = bs
  rcases bs with ⟨fst, cand⟩
  rcases fst with _ | n
  · cases cand
    · left; simp
    · cases h3 : fallbackScan lines lastEnd i with
      | some m => right; right; simp [h3]
      | none => left; simp [h3]
  · right; left
    exact backScanAux_len lines i n _ _ (by rw [hbs])

end MudMap

namespace MudMap

theorem tokensGo_head (cs : List Char) :
    ∀ acc : List Char, acc ≠ [] →
      ∃ ext rest, tokensGo cs acc = (acc.reverse ++ ext) :: rest := by
  induction cs with
  | nil =>
    intro acc hacc
    refine ⟨[], [], ?_⟩
    simp [tokensGo, hacc]
  | cons c cs ih =>
    intro acc hacc
    by_cases hws : isPyWS c = true
    · refine ⟨[], tokensGo cs [], ?_⟩
      simp [tokensGo, hws, hacc]
    · obtain ⟨ext, rest, hr⟩ := ih (c :: acc) (by simp)
      refine ⟨c :: ext, rest, ?_⟩
      simp only [tokensGo, hws, if_neg, Bool.false_eq_true, if_false]
      rw [hr]
      simp

theorem exitMatch_head (cs : List Char) (m : List Char)
    (h : exitMatch cs = some m) : ∃ t, cs = '[' :: t := by
  rcases cs with _ | ⟨c1, cs⟩
  · simp [exitMatch] at h
  rcases cs with _ | ⟨c2, cs⟩
  · simp [exitMatch] at h
  rcases cs with _ | ⟨c3, cs⟩
  · simp [exitMatch] at h
  rcases cs with _ | ⟨c4, cs⟩
  · simp [exitMatch] at h
  rcases cs with _ | ⟨c5, rest⟩
  · simp [exitMatch] at h
  simp only [exitMatch] at h
  split at h
  · rename_i hc
    exact ⟨c2 :: c3 :: c4 :: c5 :: rest, by rw [hc.1]⟩
  · cases h

theorem moves_head_ne :
    ∀ m ∈ MOVES, m.data.head? ≠ some '[' := by
  decide

theorem headTokStr_bracket (l : List Char) :
    ∃ ext, headTokStr ⟨'[' :: l⟩ = ⟨'[' :: ext⟩ := by
  obtain ⟨ext, rest, hr⟩ := tokensGo_head l ['['] (by simp)
  refine ⟨ext, ?_⟩
  simp only [headTokStr, tokensOf, tokensGo]
  rw [if_neg (by decide : ¬(isPyWS '[' = true))]
  rw [hr]
  simp

theorem mvF_exit_none (lines : List String) (a : Nat) (m : List Char)
    (hx : exitMatch (pyStrip (lineAt lines a)).data = some m) :
    mvF lines a = none := by
  obtain ⟨t, ht⟩ := exitMatch_head _ _ hx
  have hdata : pyLower (pyStrip (lineAt lines a)) = ⟨'[' :: t.map Char.toLower⟩ := by
    unfold pyLower
    rw [ht]
    simp only [List.map_cons]
    rw [show Char.toLower '[' = '[' from by decide]
  obtain ⟨ext, hext⟩ := headTokStr_bracket (t.map Char.toLower)
  have hnot : headTokStr (pyLower (pyStrip (lineAt lines a))) ∉ MOVES := by
    intro hmem
    have := moves_head_ne _ hmem
    rw [hdata, hext] at hmem this
    exact this rfl
  unfold mvF
  rw [if_neg hnot]

/-- C6: between two consecutive detected rooms, the movement command is the
first recognised lowercased leading token among the lines strictly between
the two exit declarations — the source scans from `room_a['index']`
inclusive, but an exit-declaration line's first token starts with `[` and
therefore can never be a movement command, so the scan is equivalent to the
exclusive one (`findMoveSpec`, which starts at `a + 1`). -/
theorem find_move_eq_spec (lines : List String) (a b : Nat) (m : List Char)
    (hx : exitMatch (pyStrip (lineAt lines a)).data = some m) :
    findMove lines a b = findMoveSpec lines a b := by
  unfold findMove findMoveSpec
  rcases Nat.lt_or_ge a b with hab | hab
  · have h1 : b - a = (b - (a + 1)) + 1 := by omega
    rw [h1, List.range'_succ]
    simp only [firstSome, mvF_exit_none lines a m hx]
  · have h1 : b - a = 0 := by omega
    have h2 : b - (a + 1) = 0 := by omega
    rw [h1, h2]
    simp [List.range'_zero]

theorem find_move_eq_spec_witness :
    exitMatch (pyStrip (lineAt fullWordLines 2)).data = some "north".data ∧
      findMove fullWordLines 2 6 = findMoveSpec fullWordLines 2 6 :=
  ⟨by decide, find_move_eq_spec fullWordLines 2 6 "north".data (by decide)⟩

end MudMap

namespace MudMap

theorem lookup_dirMap_eq (c : String) :
    (lookupA c dirMap).getD c = amendedLabel c := by
  by_cases h1 : c = "n"
  · subst h1; decide
  by_cases h2 : c = "s"
  · subst h2; decide
  by_cases h3 : c = "e"
  · subst h3; decide
  by_cases h4 : c = "w"
  · subst h4; decide
  by_cases h5 : c = "u"
  · subst h5; decide
  by_cases h6 : c = "d"
  · subst h6; decide
  have g1 : ¬(("n" : String) = c) := fun h => h1 h.symm
  have g2 : ¬(("s" : String) = c) := fun h => h2 h.symm
  have g3 : ¬(("e" : String) = c) := fun h => h3 h.symm
  have g4 : ¬(("w" : String) = c) := fun h => h4 h.symm
  have g5 : ¬(("u" : String) = c) := fun h => h5 h.symm
  have g6 : ¬(("d" : String) = c) := fun h => h6 h.symm
  simp [lookupA, dirMap, amendedLabel, g1, g2, g3, g4, g5, g6, h1, h2, h3, h4, h5, h6]

/-- C4 amended: for a consecutive room pair whose names are not reserved
and for which a movement command was detected, the emitted link carries the
label given by `amendedLabel`: the six single-letter commands map to their
localized direction words, while a full-word command labels the link with
the command word itself. -/
theorem pair_link_label (lines : List String) (ra rb : RoomR) (cmd : String)
    (h1 : findMove lines ra.index rb.index = some cmd)
    (h2 : ra.name ∉ RESERVED) (h3 : rb.name ∉ RESERVED) :
    pairLink lines ra rb = some (ra.name, rb.name, amendedLabel cmd) := by
  unfold pairLink
  rw [if_neg (by rw [not_or]; exact ⟨h2, h3⟩), h1]
  simp only [lookup_dirMap_eq]

theorem pair_link_label_witness :
    findMove fullWordLines 2 6 = some "north" ∧
    ("RoomA" : String) ∉ RESERVED ∧ ("RoomB" : String) ∉ RESERVED ∧
    pairLink fullWordLines ⟨"RoomA", ["north"], 2⟩ ⟨"RoomB", ["south"], 6⟩ =
      some ("RoomA", "RoomB", amendedLabel "north") :=
  ⟨by decide, by decide, by decide,
   pair_link_label fullWordLines ⟨"RoomA", ["north"], 2⟩ ⟨"RoomB", ["south"], 6⟩
     "north" (by decide) (by decide) (by decide)⟩

end MudMap

namespace MudMap

theorem dropLit_nil (cs : List Char) : dropLit [] cs = some cs := rfl

theorem dropLit_cons (p : Char) (ps cs : List Char) :
    dropLit (p :: ps) (p :: cs) = dropLit ps cs := by
  simp [dropLit]

theorem dropLit_single (c : Char) (cs : List Char) :
    dropLit [c] (c :: cs) = some cs := by
  simp [dropLit]

theorem dropLit_ne (p c : Char) (ps cs : List Char) (h : ¬(c = p)) :
    dropLit (p :: ps) (c :: cs) = none := by
  simp [dropLit, h]

theorem orElseOpt_some (x : List Char) (b : Option (List Char)) :
    orElseOpt (some x) b = some x := rfl

theorem orElseOpt_none (b : Option (List Char)) :
    orElseOpt none b = b := rfl

theorem dropWhile_all (l r : List Char) (h : ∀ c ∈ l, c.isDigit = true) :
    List.dropWhile Char.isDigit (l ++ r) = List.dropWhile Char.isDigit r := by
  induction l with
  | nil => rfl
  | cons c l ih =>
    rw [List.cons_append, List.dropWhile_cons, if_pos (h c (by simp))]
    exact ih fun x hx => h x (by simp [hx])

theorem dropDigits1_of_digits (d : List Char) (r : List Char)
    (hne : d ≠ []) (hall : ∀ c ∈ d, c.isDigit = true) :
    dropDigits1 (d ++ r) = some (List.dropWhile Char.isDigit r) := by
  rcases d with _ | ⟨c, ds⟩
  · cases hne rfl
  · rw [List.cons_append]
    simp only [dropDigits1]
    rw [if_pos (hall c (by simp))]
    rw [dropWhile_all ds r fun x hx => hall x (by simp [hx])]

theorem dropWhile_nondigit_head (c : Char) (l : List Char) (hc : c.isDigit = false) :
    List.dropWhile Char.isDigit (c :: l) = c :: l := by
  rw [List.dropWhile_cons, if_neg (by rw [hc]; exact Bool.false_ne_true)]

theorem closedBy_append (l : List Char) (h : '\n' ∉ l) :
    closedBy ')' (l ++ [')']) = true := by
  induction l with
  | nil => decide
  | cons c l ih =>
    have h1 : ¬(c = '\n') := fun hc => h (by simp [hc])
    have h2 : '\n' ∉ l := fun hm => h (by simp [hm])
    have h3 : (l ++ [')']).isEmpty = false := by
      cases l <;> rfl
    rw [List.cons_append]
    simp only [closedBy, h3, Bool.false_eq_true, if_false]
    simp [h1, ih h2]

theorem dropWhile_closed (l : List Char) (h : '\n' ∉ l) :
    closedBy ')' (List.dropWhile Char.isDigit (l ++ [')'])) = true := by
  induction l with
  | nil => decide
  | cons c l ih =>
    rw [List.cons_append, List.dropWhile_cons]
    by_cases hd : c.isDigit = true
    · rw [if_pos hd]
      exact ih fun hm => h (by simp [hm])
    · rw [if_neg hd]
      exact closedBy_append (c :: l) h

theorem group_hp (d1 d2 X : List Char)
    (h1 : d1 ≠ []) (a1 : ∀ c ∈ d1, c.isDigit = true)
    (h2 : d2 ≠ []) (a2 : ∀ c ∈ d2, c.isDigit = true) :
    statPair ('(' :: 'h' :: 'p' :: []) ('(' :: 'h' :: 'p' :: (d1 ++ ('/' :: (d2 ++ X)))) =
      some (X.dropWhile Char.isDigit) := by
  unfold statPair
  simp only [dropLit_cons, dropLit_nil, Option.some_bind]
  rw [dropDigits1_of_digits d1 _ h1 a1]
  simp only [Option.some_bind]
  rw [dropWhile_nondigit_head '/' _ (by decide), dropLit_single]
  simp only [Option.some_bind]
  exact dropDigits1_of_digits d2 X h2 a2

theorem group_ma (d1 d2 X : List Char)
    (h1 : d1 ≠ []) (a1 : ∀ c ∈ d1, c.isDigit = true)
    (h2 : d2 ≠ []) (a2 : ∀ c ∈ d2, c.isDigit = true) :
    statPair (' ' :: 'm' :: 'a' :: []) (' ' :: 'm' :: 'a' :: (d1 ++ ('/' :: (d2 ++ X)))) =
      some (X.dropWhile Char.isDigit) := by
  unfold statPair
  simp only [dropLit_cons, dropLit_nil, Option.some_bind]
  rw [dropDigits1_of_digits d1 _ h1 a1]
  simp only [Option.some_bind]
  rw [dropWhile_nondigit_head '/' _ (by decide), dropLit_single]
  simp only [Option.some_bind]
  exact dropDigits1_of_digits d2 X h2 a2

theorem group_p (d1 d2 X : List Char)
    (h1 : d1 ≠ []) (a1 : ∀ c ∈ d1, c.isDigit = true)
    (h2 : d2 ≠ []) (a2 : ∀ c ∈ d2, c.isDigit = true) :
    statPair (' ' :: 'p' :: []) (' ' :: 'p' :: (d1 ++ ('/' :: (d2 ++ X)))) =
      some (X.dropWhile Char.isDigit) := by
  unfold statPair
  simp only [dropLit_cons, dropLit_nil, Option.some_bind]
  rw [dropDigits1_of_digits d1 _ h1 a1]
  simp only [Option.some_bind]
  rw [dropWhile_nondigit_head '/' _ (by decide), dropLit_single]
  simp only [Option.some_bind]
  exact dropDigits1_of_digits d2 X h2 a2

end MudMap


namespace MudMap

/-- C5 amended: the Line Classifier accepts as a status prompt every line
of the specific four-fixed-label shape the regex demands — `(`, then the
groups `hp<digits>/<digits>`, `ma<digits>/<digits>`,
(`mv` or `v`)`<digits>/<digits>`, `p<digits>/<digits>` separated by single
spaces, then arbitrary non-newline trailing text, then `)` at end of line.
Three numeric groups with other labels are not sufficient (see the
counterexample for the claim as stated). -/
theorem prompt_accepts_four_groups
    (d1 d2 d3 d4 d5 d6 d7 d8 marker trailing : List Char)
    (hm : marker = 'm' :: 'v' :: [] ∨ marker = 'v' :: [])
    (hd1 : d1 ≠ []) (ha1 : ∀ c ∈ d1, c.isDigit = true)
    (hd2 : d2 ≠ []) (ha2 : ∀ c ∈ d2, c.isDigit = true)
    (hd3 : d3 ≠ []) (ha3 : ∀ c ∈ d3, c.isDigit = true)
    (hd4 : d4 ≠ []) (ha4 : ∀ c ∈ d4, c.isDigit = true)
    (hd5 : d5 ≠ []) (ha5 : ∀ c ∈ d5, c.isDigit = true)
    (hd6 : d6 ≠ []) (ha6 : ∀ c ∈ d6, c.isDigit = true)
    (hd7 : d7 ≠ []) (ha7 : ∀ c ∈ d7, c.isDigit = true)
    (hd8 : d8 ≠ []) (ha8 : ∀ c ∈ d8, c.isDigit = true)
    (ht : '\n' ∉ trailing) :
    promptMatch (promptShape d1 d2 d3 d4 d5 d6 d7 d8 marker trailing) = true := by
  unfold promptShape promptMatch
  rw [group_hp d1 d2 _ hd1 ha1 hd2 ha2]
  simp only [Option.some_bind]
  rw [dropWhile_nondigit_head ' ' _ (by decide)]
  rw [group_ma d3 d4 _ hd3 ha3 hd4 ha4]
  simp only [Option.some_bind]
  rw [dropWhile_nondigit_head ' ' _ (by decide)]
  rw [dropLit_single]
  simp only [Option.some_bind]
  rcases hm with rfl | rfl
  · simp only [List.cons_append, List.nil_append, dropLit_cons, dropLit_nil,
      Option.some_bind]
    rw [dropDigits1_of_digits d5 _ hd5 ha5]
    simp only [Option.some_bind]
    rw [dropWhile_nondigit_head '/' _ (by decide), dropLit_single]
    simp only [Option.some_bind]
    rw [dropDigits1_of_digits d6 _ hd6 ha6]
    rw [dropWhile_nondigit_head ' ' _ (by decide)]
    rw [orElseOpt_some]
    simp only [Option.some_bind]
    rw [group_p d7 d8 _ hd7 ha7 hd8 ha8]
    simp only [Option.some_bind]
    show closedBy ')' (List.dropWhile Char.isDigit (trailing ++ ')' :: [])) = true
    exact dropWhile_closed trailing ht
  · simp only [List.cons_append, List.nil_append]
    rw [dropLit_ne 'm' 'v' _ _ (by decide)]
    simp only [Option.none_bind, orElseOpt_none, dropLit_cons, dropLit_nil,
      Option.some_bind]
    rw [dropDigits1_of_digits d5 _ hd5 ha5]
    simp only [Option.some_bind]
    rw [dropWhile_nondigit_head '/' _ (by decide), dropLit_single]
    simp only [Option.some_bind]
    rw [dropDigits1_of_digits d6 _ hd6 ha6]
    rw [dropWhile_nondigit_head ' ' _ (by decide)]
    simp only [Option.some_bind]
    rw [group_p d7 d8 _ hd7 ha7 hd8 ha8]
    simp only [Option.some_bind]
    show closedBy ')' (List.dropWhile Char.isDigit (trailing ++ ')' :: [])) = true
    exact dropWhile_closed trailing ht

theorem prompt_accepts_four_groups_witness :
    (('1' :: []) ≠ ([] : List Char)) ∧ '\n' ∉ (' ' :: 'x' :: []) ∧
    promptMatch (promptShape ('1' :: []) ('2' :: []) ('3' :: []) ('4' :: [])
      ('5' :: []) ('6' :: []) ('7' :: []) ('8' :: []) ('m' :: 'v' :: [])
      (' ' :: 'x' :: [])) = true :=
  ⟨by decide, by decide,
   prompt_accepts_four_groups ('1' :: []) ('2' :: []) ('3' :: []) ('4' :: [])
     ('5' :: []) ('6' :: []) ('7' :: []) ('8' :: []) ('m' :: 'v' :: [])
     (' ' :: 'x' :: []) (Or.inl rfl)
     (by decide) (by decide) (by decide) (by decide) (by decide) (by decide)
     (by decide) (by decide) (by decide) (by decide) (by decide) (by decide)
     (by decide) (by decide) (by decide) (by decide) (by decide)⟩

end MudMap

namespace MudMap

theorem decVal_append_one (xs : List Char) (c : Char) :
    decVal (xs ++ [c]) = 10 * decVal xs + (c.toNat - 48) := by
  unfold decVal
  rw [List.foldl_append]
  rfl

theorem digitChar_toNat (m : Nat) (h : m < 10) :
    (Nat.digitChar m).toNat - 48 = m := by
  interval_cases m <;> rfl

theorem toDigitsCore_acc (b : Nat) :
    ∀ (fuel n : Nat) (ds : List Char),
      Nat.toDigitsCore b fuel n ds = Nat.toDigitsCore b fuel n [] ++ ds := by
  intro fuel
  induction fuel with
  | zero => intro n ds; rfl
  | succ f ih =>
    intro n ds
    simp only [Nat.toDigitsCore]
    by_cases h : n / b = 0
    · simp [h]
    · rw [if_neg h, if_neg h, ih (n / b) (Nat.digitChar (n % b) :: ds),
        ih (n / b) [Nat.digitChar (n % b)]]
      simp

theorem toDigitsCore_val :
    ∀ (fuel n : Nat), n < fuel →
      decVal (Nat.toDigitsCore 10 fuel n []) = n := by
  intro fuel
  induction fuel with
  | zero => intro n h; omega
  | succ f ih =>
    intro n h
    simp only [Nat.toDigitsCore]
    by_cases hd : n / 10 = 0
    · rw [if_pos hd]
      have hn : n < 10 := by omega
      have hm : n % 10 = n := Nat.mod_eq_of_lt hn
      rw [hm]
      show decVal ([] ++ [Nat.digitChar n]) = n
      rw [decVal_append_one]
      simp [decVal, digitChar_toNat n hn]
    · rw [if_neg hd]
      rw [toDigitsCore_acc 10 f (n / 10) [Nat.digitChar (n % 10)]]
      rw [decVal_append_one]
      have h1 : n / 10 < f := by
        have h2 : n / 10 < n := Nat.div_lt_self (by omega) (by omega)
        omega
      rw [ih (n / 10) h1]
      rw [digitChar_toNat (n % 10) (Nat.mod_lt n (by omega))]
      omega

theorem nat_repr_val (n : Nat) : decVal (Nat.repr n).data = n := by
  show decVal (Nat.toDigitsCore 10 (n + 1) n []) = n
  exact toDigitsCore_val (n + 1) n (Nat.lt_succ_self n)

theorem mkId_inj (m n : Nat) (h : mkId m = mkId n) : m = n := by
  have hd := congrArg String.data h
  simp only [mkId, String.data_append] at hd
  have h2 : (Nat.repr m).data = (Nat.repr n).data :=
    List.append_cancel_left hd
  have h3 := congrArg decVal h2
  rwa [nat_repr_val, nat_repr_val] at h3

theorem lookupA_none_iff (k : String) :
    ∀ nm : List (String × String), lookupA k nm = none ↔ ∀ p ∈ nm, p.1 ≠ k := by
  intro nm
  induction nm with
  | nil => simp [lookupA]
  | cons p rest ih =>
    rcases p with ⟨a, v⟩
    by_cases h : a = k
    · simp [lookupA, h]
    · simp [lookupA, h, ih]

theorem lookupA_append_some (k v : String) :
    ∀ (nm tl : List (String × String)), lookupA k nm = some v →
      lookupA k (nm ++ tl) = some v := by
  intro nm
  induction nm with
  | nil => intro tl h; cases h
  | cons p rest ih =>
    intro tl h
    rcases p with ⟨a, w⟩
    by_cases ha : a = k
    · simp only [lookupA, if_pos ha] at h ⊢
      exact h
    · simp only [lookupA, if_neg ha] at h ⊢
      exact ih tl h

theorem lookupA_isSome_append (k : String) (nm tl : List (String × String))
    (h : (lookupA k nm).isSome) : (lookupA k (nm ++ tl)).isSome := by
  cases hv : lookupA k nm with
  | none => rw [hv] at h; cases h
  | some v => rw [lookupA_append_some k v nm tl hv]; rfl

theorem lookupA_append_right (k : String) :
    ∀ (nm tl : List (String × String)), lookupA k nm = none →
      lookupA k (nm ++ tl) = lookupA k tl := by
  intro nm
  induction nm with
  | nil => intro tl _; rfl
  | cons p rest ih =>
    intro tl h
    rcases p with ⟨a, w⟩
    by_cases ha : a = k
    · simp only [lookupA, if_pos ha] at h
      cases h
    · simp only [lookupA, if_neg ha] at h ⊢
      exact ih tl h

end MudMap

namespace MudMap

theorem addNodes_append :
    ∀ (rs : List RoomR) (nm : List (String × String)) (out : List String),
      ∃ tl tlo, (addNodes rs nm out).1 = nm ++ tl ∧ (addNodes rs nm out).2 = out ++ tlo := by
  intro rs
  induction rs with
  | nil =>
    intro nm out
    exact ⟨[], [], by simp [addNodes], by simp [addNodes]⟩
  | cons r rs ih =>
    intro nm out
    simp only [addNodes]
    split
    · exact ih nm out
    · obtain ⟨tl, tlo, h1, h2⟩ :=
        ih (nm ++ [(r.name, mkId nm.length)]) (out ++ [renderNode (mkId nm.length) r.name])
      refine ⟨(r.name, mkId nm.length) :: tl, renderNode (mkId nm.length) r.name :: tlo, ?_, ?_⟩
      · rw [h1]; simp
      · rw [h2]; simp

theorem addNodes_nodeInv :
    ∀ (rs : List RoomR) (nm : List (String × String)) (out : List String),
      nm.map Prod.snd = (List.range nm.length).map mkId →
      out = nm.map (fun p => renderNode p.2 p.1) →
      (nm.map Prod.fst).Nodup →
      (∀ p ∈ nm, p.1 ∉ RESERVED) →
      (addNodes rs nm out).1.map Prod.snd =
          (List.range (addNodes rs nm out).1.length).map mkId ∧
        (addNodes rs nm out).2 = (addNodes rs nm out).1.map (fun p => renderNode p.2 p.1) ∧
        ((addNodes rs nm out).1.map Prod.fst).Nodup ∧
        (∀ p ∈ (addNodes rs nm out).1, p.1 ∉ RESERVED) := by
  intro rs
  induction rs with
  | nil =>
    intro nm out h1 h2 h3 h4
    simp only [addNodes]
    exact ⟨h1, h2, h3, h4⟩
  | cons r rs ih =>
    intro nm out h1 h2 h3 h4
    simp only [addNodes]
    split
    · exact ih nm out h1 h2 h3 h4
    · rename_i hcond
      rw [not_or] at hcond
      obtain ⟨hres, hlook⟩ := hcond
      have hnone : lookupA r.name nm = none := by
        cases hv : lookupA r.name nm with
        | none => rfl
        | some v => exact absurd (by rw [hv]; rfl) hlook
      have hnotmem : r.name ∉ nm.map Prod.fst := by
        intro hm
        obtain ⟨p, hp, hpe⟩ := List.mem_map.mp hm
        exact (lookupA_none_iff r.name nm).mp hnone p hp hpe
      apply ih
      · simp [h1, List.range_succ]
      · simp [h2]
      · simp only [List.map_append, List.map_cons, List.map_nil]
        rw [List.nodup_append]
        refine ⟨h3, List.nodup_singleton _, ?_⟩
        intro a ha hb
        simp only [List.mem_singleton] at hb
        rw [hb] at ha
        exact hnotmem ha
      · intro p hp
        rcases List.mem_append.mp hp with h | h
        · exact h4 p h
        · simp only [List.mem_singleton] at h
          rw [h]
          exact hres

theorem addNodes_covers :
    ∀ (rs : List RoomR) (nm : List (String × String)) (out : List String) (r : RoomR),
      r ∈ rs → r.name ∉ RESERVED →
      (lookupA r.name (addNodes rs nm out).1).isSome := by
  intro rs
  induction rs with
  | nil => intro nm out r hr; cases hr
  | cons r0 rs ih =>
    intro nm out r hr hres
    simp only [addNodes]
    rcases List.mem_cons.mp hr with rfl | hr'
    · split
      · rename_i hcond
        rcases hcond with h | h
        · exact absurd h hres
        · obtain ⟨tl, tlo, h1, _⟩ := addNodes_append rs nm out
          rw [h1]
          exact lookupA_isSome_append _ _ _ h
      · rename_i hcond
        rw [not_or] at hcond
        have hnone : lookupA r.name nm = none := by
          cases hv : lookupA r.name nm with
          | none => rfl
          | some v => exact absurd (by rw [hv]; rfl) hcond.2
        obtain ⟨tl, tlo, h1, _⟩ :=
          addNodes_append rs (nm ++ [(r.name, mkId nm.length)])
            (out ++ [renderNode (mkId nm.length) r.name])
        rw [h1]
        apply lookupA_isSome_append
        rw [lookupA_append_right _ _ _ hnone]
        simp [lookupA]
    · split
      · exact ih nm out r hr' hres
      · exact ih _ _ r hr' hres

theorem pairLink_some (lines : List String) (ra rb : RoomR)
    (t : String × String × String) (h : pairLink lines ra rb = some t) :
    t.1 = ra.name ∧ t.2.1 = rb.name ∧ ra.name ∉ RESERVED ∧ rb.name ∉ RESERVED := by
  unfold pairLink at h
  split at h
  · cases h
  · rename_i hres
    rw [not_or] at hres
    split at h
    · cases h
      exact ⟨rfl, rfl, hres.1, hres.2⟩
    · split at h
      · cases h
      · cases h
        exact ⟨rfl, rfl, hres.1, hres.2⟩

theorem buildLinks_mem (lines : List String) (rooms : List RoomR)
    (t : String × String × String) (h : t ∈ buildLinks lines rooms) :
    ∃ ra ∈ rooms, ∃ rb ∈ rooms, t.1 = ra.name ∧ t.2.1 = rb.name ∧
      ra.name ∉ RESERVED ∧ rb.name ∉ RESERVED := by
  unfold buildLinks at h
  obtain ⟨p, hp, hpl⟩ := List.mem_filterMap.mp h
  rcases p with ⟨pa, pb⟩
  obtain ⟨h1, h2⟩ := List.of_mem_zip hp
  obtain ⟨e1, e2, e3, e4⟩ := pairLink_some lines pa pb t hpl
  exact ⟨pa, h1, pb, List.tail_subset rooms h2, e1, e2, e3, e4⟩

theorem stepFile_inv (st : GState) (file : Option (List String)) (h : GInv st) :
    GInv (stepFile st file) := by
  rcases file with _ | lines
  · exact h
  · obtain ⟨h1, h2, h3, h4, h5⟩ := h
    obtain ⟨g1, g2, g3, g4⟩ :=
      addNodes_nodeInv (collectRooms lines) st.nodeMap st.nodeLines h1 h2 h3 h4
    refine ⟨g1, g2, g3, g4, ?_⟩
    intro l hl
    rcases List.mem_append.mp hl with hold | hnew
    · obtain ⟨p1, p2, p3, p4⟩ := h5 l hold
      obtain ⟨tl, tlo, e1, _⟩ :=
        addNodes_append (collectRooms lines) st.nodeMap st.nodeLines
      refine ⟨p1, p2, ?_, ?_⟩
      · show (lookupA l.1 (addNodes (collectRooms lines) st.nodeMap st.nodeLines).1).isSome
        rw [e1]
        exact lookupA_isSome_append _ _ _ p3
      · show (lookupA l.2.1 (addNodes (collectRooms lines) st.nodeMap st.nodeLines).1).isSome
        rw [e1]
        exact lookupA_isSome_append _ _ _ p4
    · obtain ⟨ra, hra, rb, hrb, e1, e2, e3, e4⟩ :=
        buildLinks_mem lines (collectRooms lines) l hnew
      refine ⟨by rw [e1]; exact e3, by rw [e2]; exact e4, ?_, ?_⟩
      · rw [e1]
        exact addNodes_covers (collectRooms lines) st.nodeMap st.nodeLines ra hra e3
      · rw [e2]
        exact addNodes_covers (collectRooms lines) st.nodeMap st.nodeLines rb hrb e4

theorem foldl_inv :
    ∀ (files : List (Option (List String))) (st : GState),
      GInv st → GInv (files.foldl stepFile st) := by
  intro files
  induction files with
  | nil => intro st h; exact h
  | cons f fs ih => intro st h; exact ih _ (stepFile_inv st f h)

theorem runFiles_inv (files : List (Option (List String))) :
    GInv (runFiles files) :=
  foldl_inv files ⟨[], [], []⟩ ⟨rfl, rfl, List.nodup_nil, by simp, by simp⟩

end MudMap

namespace MudMap

theorem foldl_nodeMap_append :
    ∀ (more : List (Option (List String))) (st : GState),
      ∃ tl, (more.foldl stepFile st).nodeMap = st.nodeMap ++ tl := by
  intro more
  induction more with
  | nil => intro st; exact ⟨[], by simp⟩
  | cons f fs ih =>
    intro st
    rcases f with _ | lines
    · exact ih st
    · obtain ⟨tl0, tlo0, e0, _⟩ :=
        addNodes_append (collectRooms lines) st.nodeMap st.nodeLines
      obtain ⟨tl1, e1⟩ := ih (stepFile st (some lines))
      refine ⟨tl0 ++ tl1, ?_⟩
      rw [List.foldl_cons, e1]
      show (stepFile st (some lines)).nodeMap ++ tl1 = st.nodeMap ++ (tl0 ++ tl1)
      rw [show (stepFile st (some lines)).nodeMap =
            (addNodes (collectRooms lines) st.nodeMap st.nodeLines).1 from rfl,
        e0, List.append_assoc]

/-- C1: across any invocation, no room name is registered in the node map
twice (display labels of node-declaration lines are pairwise distinct), the
generated identifiers `node_<k>` are pairwise distinct, the emitted
node-declaration lines are exactly the rendering of the node map in
registration order, and processing further transcripts only appends to the
node map — a registered binding, hence a room's identifier, never changes. -/
theorem node_uniqueness (files : List (Option (List String))) :
    ((runFiles files).nodeMap.map Prod.fst).Nodup ∧
    ((runFiles files).nodeMap.map Prod.snd).Nodup ∧
    (runFiles files).nodeLines =
      (runFiles files).nodeMap.map (fun p => renderNode p.2 p.1) ∧
    ∀ more, ∃ tl,
      (runFiles (files ++ more)).nodeMap = (runFiles files).nodeMap ++ tl := by
  obtain ⟨h1, h2, h3, _, _⟩ := runFiles_inv files
  refine ⟨h3, ?_, h2, ?_⟩
  · rw [h1]
    exact (List.nodup_range _).map (fun a b => mkId_inj a b)
  · intro more
    rw [show runFiles (files ++ more) =
          more.foldl stepFile (runFiles files) from List.foldl_append _ _ _ _]
    exact foldl_nodeMap_append more (runFiles files)

/-- C3: reserved command tokens never appear in the graph — every name
registered in the node map is outside the reserved command-token set, and
every buffered link's two endpoint names (the names resolved to identifiers
in emitted edges) are outside it as well, even when a detected room's name
equals such a token. -/
theorem reserved_excluded (files : List (Option (List String))) :
    (∀ p ∈ (runFiles files).nodeMap, p.1 ∉ RESERVED) ∧
    (∀ l ∈ (runFiles files).links, l.1 ∉ RESERVED ∧ l.2.1 ∉ RESERVED) := by
  obtain ⟨_, _, _, h4, h5⟩ := runFiles_inv files
  exact ⟨h4, fun l hl => ⟨(h5 l hl).1, (h5 l hl).2.1⟩⟩

/-- C9: at edge-emission time every buffered link's two endpoint names
resolve in the node map, so the endpoint-existence check before emitting an
edge never rejects a link; both endpoints are detected, non-reserved room
names registered during the same invocation. -/
theorem links_endpoints_resolve (files : List (Option (List String))) :
    ∀ l ∈ (runFiles files).links,
      l.1 ∉ RESERVED ∧ l.2.1 ∉ RESERVED ∧
      (lookupA l.1 (runFiles files).nodeMap).isSome ∧
      (lookupA l.2.1 (runFiles files).nodeMap).isSome := by
  obtain ⟨_, _, _, _, h5⟩ := runFiles_inv files
  exact h5

theorem links_endpoints_resolve_witness :
    (("RoomA", "RoomB", "north") ∈ (runFiles [some fullWordLines]).links) ∧
    (lookupA "RoomA" (runFiles [some fullWordLines]).nodeMap).isSome ∧
    (lookupA "RoomB" (runFiles [some fullWordLines]).nodeMap).isSome :=
  ⟨by decide,
   (links_endpoints_resolve [some fullWordLines] ("RoomA", "RoomB", "north")
     (by decide)).2.2.1,
   (links_endpoints_resolve [some fullWordLines] ("RoomA", "RoomB", "north")
     (by decide)).2.2.2⟩

theorem emitEdgesAux_nodup (nm : List (String × String)) :
    ∀ (links seen : List (String × String × String)),
      (emitEdgesAux nm links seen).Nodup ∧
      ∀ t ∈ emitEdgesAux nm links seen, t ∉ seen := by
  intro links
  induction links with
  | nil => intro seen; simp [emitEdgesAux]
  | cons l rest ih =>
    intro seen
    rcases l with ⟨s, e, lab⟩
    simp only [emitEdgesAux]
    cases h1 : lookupA s nm with
    | none => simpa using ih seen
    | some ids =>
      cases h2 : lookupA e nm with
      | none => simpa using ih seen
      | some ide =>
        dsimp only
        by_cases hseen : (ids, ide, lab) ∈ seen
        · rw [if_pos hseen]
          exact ih seen
        · rw [if_neg hseen]
          obtain ⟨ihn, ihs⟩ := ih ((ids, ide, lab) :: seen)
          refine ⟨?_, ?_⟩
          · exact List.Nodup.cons
              (fun hm => ihs _ hm (List.mem_cons_self _ _)) ihn
          · intro t ht
            rcases List.mem_cons.mp ht with rfl | ht'
            · exact hseen
            · intro hts
              exact ihs t ht' (List.mem_cons_of_mem _ hts)

/-- C2: no `(fromId, toId, label)` triple is emitted twice — the final
edge-emission pass deduplicates against the set of already-emitted
identifier triples, whatever transcript or room pair produced the
duplicate links. -/
theorem edge_dedup (files : List (Option (List String))) :
    (edgeTriples files).Nodup :=
  (emitEdgesAux_nodup (runFiles files).nodeMap (runFiles files).links []).1

end MudMap

namespace MudMap

theorem reserved_excluded_witness :
    (("RoomA", "node_0") ∈ (runFiles [some fullWordLines]).nodeMap) ∧
    ("RoomA" : String) ∉ RESERVED :=
  ⟨by decide,
   (reserved_excluded [some fullWordLines]).1 ("RoomA", "node_0") (by decide)⟩

end MudMap
